import Mathlib

/- Verification of the audio-chunking and chunked-transcription pipeline of the
open-podcast-processor repository (src/utils/audio_chunking.py and
src/utils/transcriber_groq.py), shallowly embedded in Lean.  Times and file
sizes, floats in the Python source, are embedded as rationals; the values in
every concrete scenario below are exactly representable in binary floating
point and the operations involved (+, -, min, comparisons) are exact on them,
so the control flow of the embedding coincides with the source's. -/

namespace PodcastProcessor

/-- Identifies which audio file a planned chunk refers to: the original asset
(the single-window fast path of `chunk_audio_file`) or an extracted chunk file
`chunk_{idx:04d}.mp3` produced by the ffmpeg loop. -/
inductive ChunkPath where
  | original : ChunkPath
  | extracted : ℕ → ChunkPath
deriving DecidableEq

/-- One entry of the list returned by `chunk_audio_file`: the tuple
`(chunk_path, start_time, end_time)`. -/
structure PlannedChunk where
  path : ChunkPath
  start_time : ℚ
  end_time : ℚ
deriving DecidableEq

/-- Constant `MAX_CHUNK_SIZE_MB = 80` from audio_chunking.py. -/
def MAX_CHUNK_SIZE_MB : ℚ := 80

/-- Constant `MAX_CHUNK_DURATION_SECONDS_SMALL = 60 * 60` from audio_chunking.py. -/
def MAX_CHUNK_DURATION_SECONDS_SMALL : ℚ := 60 * 60

/-- Constant `MAX_CHUNK_DURATION_SECONDS_LARGE = 30 * 60` from audio_chunking.py. -/
def MAX_CHUNK_DURATION_SECONDS_LARGE : ℚ := 30 * 60

/-- The window-generation `while` loop of `chunk_audio_file`
(audio_chunking.py lines 154-191), indexed by fuel.  Each iteration computes
`end_time = min(start_time + chunk_duration, duration)`, appends the window
(the ffmpeg extraction is modelled as succeeding, which is the progression the
loop makes in either case since `start_time` is updated unconditionally),
sets `start_time = end_time - overlap_seconds`, and breaks when
`start_time >= duration`; otherwise the loop re-checks `start_time < duration`.
`none` means the fuel ran out with the loop still running, so
`∀ fuel, chunkLoop ... fuel ... = none` states that the source loop diverges. -/
def chunkLoop (cd ov dur : ℚ) : ℕ → ℚ → ℕ → List PlannedChunk → Option (List PlannedChunk)
  | 0, _, _, _ => none
  | fuel + 1, start_time, chunk_index, chunks =>
    if start_time < dur then
      if dur ≤ min (start_time + cd) dur - ov then
        some (chunks ++ [⟨ChunkPath.extracted chunk_index, start_time, min (start_time + cd) dur⟩])
      else
        chunkLoop cd ov dur fuel (min (start_time + cd) dur - ov) (chunk_index + 1)
          (chunks ++ [⟨ChunkPath.extracted chunk_index, start_time, min (start_time + cd) dur⟩])
    else some chunks

/-- `chunk_audio_file` (audio_chunking.py lines 93-199), with the file probing
abstracted into the `file_size_mb` and `duration` arguments (`duration = none`
models a failed ffprobe call).  Below the 80 MB threshold it returns the single
window `(audio_path, 0.0, duration or 0.0)`; otherwise it picks the chunk
duration by the 50 MB size tier when the caller passed `None`, falls back to
`file_size_mb * 60` if the duration is unknown, and runs the window loop. -/
def chunk_audio_file (file_size_mb : ℚ) (duration : Option ℚ)
    (chunk_duration : Option ℚ) (overlap_seconds : ℚ) (fuel : ℕ) :
    Option (List PlannedChunk) :=
  if file_size_mb < MAX_CHUNK_SIZE_MB then
    some [⟨ChunkPath.original, 0, duration.getD 0⟩]
  else
    chunkLoop
      (chunk_duration.getD
        (if file_size_mb < 50 then MAX_CHUNK_DURATION_SECONDS_SMALL
         else MAX_CHUNK_DURATION_SECONDS_LARGE))
      overlap_seconds (duration.getD (file_size_mb * 60)) fuel 0 0 []

/-- Once the loop is entered with `start_time < duration` and the overlap is
positive, the next start `min(start_time + cd, duration) - overlap` is again
strictly below `duration`, so neither exit condition ever fires: the loop runs
out of any amount of fuel. -/
theorem chunkLoop_stuck (cd ov dur : ℚ) (hov : 0 < ov) :
    ∀ fuel (start : ℚ) (i : ℕ) (acc : List PlannedChunk),
      start < dur → chunkLoop cd ov dur fuel start i acc = none := by
  intro fuel
  induction fuel with
  | zero => intro start i acc _; rfl
  | succ n ih =>
    intro start i acc h
    have hmin : min (start + cd) dur ≤ dur := min_le_right _ _
    have hnext : min (start + cd) dur - ov < dur := by linarith
    simp only [chunkLoop, if_pos h, if_neg (not_le.mpr hnext)]
    exact ih _ _ _ hnext

/-- C1: the claim states that for every positive overlap and positive chunk
duration the window-generation loop of `chunk_audio_file` terminates, planning
stopping as soon as the next start reaches the total duration.  The code is
wrong: with a positive overlap the next start `end_time - overlap_seconds` is
always strictly below `duration`, so once the loop is entered (any positive
duration) it never terminates — contradicting the source's own
`# Prevent infinite loop` comment.  This theorem evaluates the embedded loop:
for every positive overlap, positive duration and any chunk duration, the loop
started at 0 exhausts every fuel bound without returning. -/
theorem chunkLoop_diverges_for_positive_overlap (cd ov dur : ℚ)
    (hov : 0 < ov) (hdur : 0 < dur) :
    ∀ fuel : ℕ, chunkLoop cd ov dur fuel 0 0 [] = none :=
  fun fuel => chunkLoop_stuck cd ov dur hov fuel 0 0 [] hdur

theorem chunkLoop_diverges_for_positive_overlap_witness :
    (0:ℚ) < 5 ∧ (0:ℚ) < 6600 ∧ chunkLoop 1800 5 6600 9 0 0 [] = none :=
  ⟨by norm_num, by norm_num,
    chunkLoop_diverges_for_positive_overlap 1800 5 6600 (by norm_num) (by norm_num) 9⟩

/-- C2: the spec's concrete scenario — a 95 MB, 6600 s file, 80 MB threshold,
5 s overlap.  The size tier (95 ≥ 50) does select `chunk_duration = 1800`, but
`chunk_audio_file` never returns the claimed 4 windows, or anything at all:
the window starts progress 0, 1795, 3590, 5385 and then stay at 6595 < 6600
forever (and already the second window appended is `(1795, 3595)`, not the
claimed `(1795, 3600)`, since each window spans `chunk_duration` seconds from
its start).  For every fuel bound the embedded planner is still looping. -/
theorem chunk_audio_file_scenario95_diverges :
    (if (95:ℚ) < 50 then MAX_CHUNK_DURATION_SECONDS_SMALL
     else MAX_CHUNK_DURATION_SECONDS_LARGE) = 1800 ∧
    ∀ fuel : ℕ, chunk_audio_file 95 (some 6600) none 5 fuel = none := by
  constructor
  · norm_num [MAX_CHUNK_DURATION_SECONDS_LARGE]
  · intro fuel
    have h80 : ¬ ((95:ℚ) < MAX_CHUNK_SIZE_MB) := by norm_num [MAX_CHUNK_SIZE_MB]
    simp only [chunk_audio_file, if_neg h80, Option.getD_none, Option.getD_some]
    have h50 : ¬ ((95:ℚ) < 50) := by norm_num
    rw [if_neg h50]
    exact chunkLoop_stuck _ 5 6600 (by norm_num) fuel 0 0 [] (by norm_num)

/-- C7: for every file strictly below the 80 MB threshold, with any known
duration, any overlap, any explicit or default chunk duration and any fuel,
`chunk_audio_file` returns the single-window plan `(original, 0, duration)`
referencing the original asset (so the window loop — the only caller of the
ffmpeg chunk extractor — is never entered and no extracted chunk appears in
the plan). -/
theorem chunk_audio_file_below_threshold_single_window
    (file_size_mb d overlap_seconds : ℚ) (chunk_duration : Option ℚ) (fuel : ℕ)
    (h : file_size_mb < MAX_CHUNK_SIZE_MB) :
    chunk_audio_file file_size_mb (some d) chunk_duration overlap_seconds fuel =
      some [⟨ChunkPath.original, 0, d⟩] ∧
    ∀ plan, chunk_audio_file file_size_mb (some d) chunk_duration overlap_seconds fuel =
        some plan → ∀ c ∈ plan, c.path = ChunkPath.original := by
  refine ⟨by simp [chunk_audio_file, if_pos h], ?_⟩
  intro plan hplan c hc
  simp only [chunk_audio_file, if_pos h, Option.some.injEq] at hplan
  subst hplan
  simp only [List.mem_singleton] at hc
  subst hc
  rfl

theorem chunk_audio_file_below_threshold_single_window_witness :
    (15:ℚ) < MAX_CHUNK_SIZE_MB ∧
    chunk_audio_file 15 (some 10800) none 5 0 = some [⟨ChunkPath.original, 0, 10800⟩] :=
  ⟨by norm_num [MAX_CHUNK_SIZE_MB],
    (chunk_audio_file_below_threshold_single_window 15 10800 5 none 0
      (by norm_num [MAX_CHUNK_SIZE_MB])).1⟩

/-- Text is embedded as a list of characters so that every string operation
the source performs (strip, join, slicing) is executable by kernel reduction. -/
abbrev Text := List Char

/-- Shorthand turning a string literal into its character list. -/
def str (s : String) : Text := s.data

/-- Python `str.strip()`: remove leading and trailing whitespace. -/
def pyStrip (l : Text) : Text :=
  ((l.dropWhile Char.isWhitespace).reverse.dropWhile Char.isWhitespace).reverse

/-- Python `" ".join(parts)`: concatenate with a single space between parts. -/
def joinWithSpace : List Text → Text
  | [] => []
  | [t] => t
  | t :: rest => t ++ ' ' :: joinWithSpace rest

/-- One entry of the `segments` array of a Groq Whisper `verbose_json`
response, as read by `transcribe_audio_chunk`: `start`, `end` (named `stop`
here because `end` is a Lean keyword) and `text`, each `get` defaulting as in
the source (0, 0, empty string) when the key is missing. -/
structure RawSegment where
  start : ℚ
  stop : ℚ
  text : Text
deriving DecidableEq

/-- The parts of the Groq API JSON response that `transcribe_audio_chunk`
reads: `segments` (missing key and empty array are both modelled by `[]`,
which is exactly how the source's truthiness test treats them), `text`
(`result.get('text', '')`, default applied) and `language`
(`none` = key missing). -/
structure GroqResponse where
  segments : List RawSegment
  text : Text
  language : Option String
deriving DecidableEq

/-- A normalized transcript segment as built by `transcribe_audio_chunk`:
`{start, end, text, speaker, confidence}` (`end` again rendered as `stop`). -/
structure TranscriptSegment where
  start : ℚ
  stop : ℚ
  text : Text
  speaker : Option String
  confidence : ℚ
deriving DecidableEq

/-- The transcript dictionary produced by the transcriber.  `chunked` is an
`Option Bool` because the dictionary built by `transcribe_audio_chunk` has no
`chunked` key at all (`none`), while the merged dictionary built by
`transcribe_audio` sets it (`some b`). -/
structure Transcript where
  segments : List TranscriptSegment
  language : String
  text : Text
  provider : String
  chunked : Option Bool
deriving DecidableEq

/-- The response-conversion step of `transcribe_audio_chunk`
(transcriber_groq.py lines 103-123).  If the response carries a non-empty
`segments` array, each segment is shifted by `offset_seconds` and its text
stripped; otherwise a single fallback segment is synthesized with
`start = end = offset_seconds` and the flat response text. -/
def convertSegments (r : GroqResponse) (offset_seconds : ℚ) : List TranscriptSegment :=
  if r.segments.isEmpty then
    [⟨offset_seconds, offset_seconds, r.text, none, 1⟩]
  else
    r.segments.map fun s =>
      ⟨s.start + offset_seconds, s.stop + offset_seconds, pyStrip s.text, none, 1⟩

/-- `transcribe_audio_chunk` (transcriber_groq.py lines 29-136).  The file
probing, the HTTP upload and every exception path are abstracted into the
`response` oracle: `none` covers the over-100MB skip, transport errors,
non-2xx responses and JSON failures, all of which make the source return
`None`.  On a response, the function returns the dictionary
`{segments, language (defaulted to 'en'), text, provider: 'groq'}` — note it
carries no `chunked` key. -/
def transcribe_audio_chunk (response : Option GroqResponse) (offset_seconds : ℚ) :
    Option Transcript :=
  match response with
  | none => none
  | some r =>
    some ⟨convertSegments r offset_seconds, r.language.getD "en", r.text, "groq", none⟩

/-- The per-chunk accumulation loop of `transcribe_audio`
(transcriber_groq.py lines 203-219): chunks are processed in plan order, a
failed chunk (`None` result) is skipped, a successful one appends its segments
and its flat text and overwrites the running language when its own language
string is truthy (non-empty). -/
def chunkCollect (responses : ℕ → Option GroqResponse) :
    List PlannedChunk → ℕ → List TranscriptSegment → List Text → String →
    List TranscriptSegment × List Text × String
  | [], _, all_segments, all_text_parts, language => (all_segments, all_text_parts, language)
  | c :: rest, idx, all_segments, all_text_parts, language =>
    match transcribe_audio_chunk (responses idx) c.start_time with
    | none => chunkCollect responses rest (idx + 1) all_segments all_text_parts language
    | some t =>
      chunkCollect responses rest (idx + 1) (all_segments ++ t.segments)
        (all_text_parts ++ [t.text]) (if t.language = "" then language else t.language)

/-- `transcribe_audio` (transcriber_groq.py lines 138-256), with the chunk
plan passed in (the source computes it by calling `chunk_audio_file`) and the
per-chunk API responses abstracted into the `responses` oracle.  An empty plan
(`Failed to create audio chunks`) yields `None`; a plan consisting of exactly
the original file is transcribed directly with offset 0 and its chunk result
returned unchanged; otherwise the chunks are collected in order, and the
merged dictionary — with `chunked = len(chunks) > 1` and the flat texts joined
by single spaces — is returned unless no segment was collected at all, in
which case the function returns `None`. -/
def transcribe_audio (chunks : List PlannedChunk) (responses : ℕ → Option GroqResponse) :
    Option Transcript :=
  if chunks.isEmpty then none
  else if chunks.length = 1 ∧ chunks.head?.map PlannedChunk.path = some ChunkPath.original then
    transcribe_audio_chunk (responses 0) 0
  else
    match chunkCollect responses chunks 0 [] [] "en" with
    | (all_segments, all_text_parts, language) =>
      if all_segments.isEmpty then none
      else
        some ⟨all_segments, language, joinWithSpace all_text_parts, "groq",
          some (decide (1 < chunks.length))⟩

/-- A flat-text-only Groq response (no segment-level detail), used as the
concrete input of the spec's window `(5, 300, 600)` scenario. -/
def flatOnlyResponse : GroqResponse := ⟨[], str "hello", none⟩

/-- C3 counterexample: for the window `(5, 300, 600)` (offset 300) and a
flat-text-only response, the synthesized segment's end is 300 — equal to the
window's start, not to the window's end 600 as the claim states (the chunk
transcriber is never even told the window's end). -/
theorem flat_fallback_end_not_window_end :
    transcribe_audio_chunk (some flatOnlyResponse) 300 =
      some ⟨[⟨300, 300, str "hello", none, 1⟩], "en", str "hello", "groq", none⟩ ∧
    ((300:ℚ) = 600 → False) := by
  exact ⟨rfl, by norm_num⟩

/-- C3 amended: when the external service returns no segment-level detail,
`transcribe_audio_chunk` synthesizes exactly one segment whose start AND end
both equal the chunk's offset (the window's start), with the flat text,
`confidence = 1.0` and `speaker = None`. -/
theorem flat_fallback_single_segment_at_offset (r : GroqResponse) (offset_seconds : ℚ)
    (h : r.segments = []) :
    transcribe_audio_chunk (some r) offset_seconds =
      some ⟨[⟨offset_seconds, offset_seconds, r.text, none, 1⟩],
        r.language.getD "en", r.text, "groq", none⟩ := by
  simp [transcribe_audio_chunk, convertSegments, h]

theorem flat_fallback_single_segment_at_offset_witness :
    (⟨[], str "hi", none⟩ : GroqResponse).segments = [] ∧
    transcribe_audio_chunk (some ⟨[], str "hi", none⟩) 7 =
      some ⟨[⟨7, 7, str "hi", none, 1⟩], "en", str "hi", "groq", none⟩ :=
  ⟨rfl, flat_fallback_single_segment_at_offset ⟨[], str "hi", none⟩ 7 rfl⟩

/-- Single-window plan referencing the original asset, for the C4
counterexample. -/
def singleOriginalPlan : List PlannedChunk := [⟨ChunkPath.original, 0, 100⟩]

/-- A fixed successful response for every chunk, for the C4 counterexample. -/
def constantResponses : ℕ → Option GroqResponse :=
  fun _ => some ⟨[⟨0, 10, str "hi"⟩], str "hi", none⟩

/-- C4 counterexample: in the single-window case `transcribe_audio` returns
the chunk-level dictionary directly, and that dictionary has no `chunked`
field at all — the returned transcript is non-`None`, yet its `chunked` field
is absent rather than the claimed `False`. -/
theorem single_window_result_lacks_chunked :
    (transcribe_audio singleOriginalPlan constantResponses).isSome = true ∧
    Option.bind (transcribe_audio singleOriginalPlan constantResponses)
      Transcript.chunked = none := by
  exact ⟨rfl, rfl⟩

/-- C4 amended: every non-`None` transcript returned by `transcribe_audio`
carries `chunked = True` exactly when more than one chunk was planned, except
in the single-window case (a one-entry plan referencing the original asset,
transcribed directly), where the result has no `chunked` field at all. -/
theorem transcribe_audio_chunked_flag (chunks : List PlannedChunk)
    (responses : ℕ → Option GroqResponse) (t : Transcript)
    (h : transcribe_audio chunks responses = some t) :
    t.chunked =
      if chunks.length = 1 ∧ chunks.head?.map PlannedChunk.path = some ChunkPath.original
      then none else some (decide (1 < chunks.length)) := by
  by_cases hsingle :
      chunks.length = 1 ∧ chunks.head?.map PlannedChunk.path = some ChunkPath.original
  · rw [if_pos hsingle]
    have hne : chunks.isEmpty = false := by
      cases chunks with
      | nil => simp at hsingle
      | cons c rest => rfl
    rw [transcribe_audio, hne, if_pos hsingle] at h
    simp only [Bool.false_eq_true, if_false] at h
    match hr : responses 0 with
    | none => rw [hr] at h; exact absurd h (by simp [transcribe_audio_chunk])
    | some r =>
      rw [hr] at h
      simp only [transcribe_audio_chunk, Option.some.injEq] at h
      rw [← h]
  · rw [if_neg hsingle]
    rcases hchunks : chunks with _ | ⟨c, rest⟩
    · rw [hchunks] at h; exact absurd h (by simp [transcribe_audio])
    · rw [← hchunks]
      have hne : chunks.isEmpty = false := by rw [hchunks]; rfl
      rw [transcribe_audio, hne, if_neg hsingle] at h
      simp only [Bool.false_eq_true, if_false] at h
      match hc : chunkCollect responses chunks 0 [] [] "en" with
      | (segs, texts, lang) =>
        rw [hc] at h
        by_cases hempty : segs.isEmpty
        · rw [if_pos hempty] at h; exact absurd h (by simp)
        · rw [if_neg hempty] at h
          simp only [Option.some.injEq] at h
          rw [← h]

/-- Flat-text-only responses for every chunk (the fallback path, which uses
the chunk's offset verbatim), used by several witnesses. -/
def flatResponses : ℕ → Option GroqResponse := fun _ => some ⟨[], str "hi", none⟩

theorem transcribe_audio_chunked_flag_witness :
    transcribe_audio [⟨ChunkPath.extracted 0, 0, 50⟩, ⟨ChunkPath.extracted 1, 45, 100⟩]
        flatResponses =
      some ⟨[⟨0, 0, str "hi", none, 1⟩, ⟨45, 45, str "hi", none, 1⟩], "en",
        str "hi hi", "groq", some true⟩ ∧
    (some true : Option Bool) =
      if ([⟨ChunkPath.extracted 0, 0, 50⟩, ⟨ChunkPath.extracted 1, 45, 100⟩] :
            List PlannedChunk).length = 1 ∧
         ([⟨ChunkPath.extracted 0, 0, 50⟩, ⟨ChunkPath.extracted 1, 45, 100⟩] :
            List PlannedChunk).head?.map PlannedChunk.path = some ChunkPath.original
      then none
      else some (decide (1 <
        ([⟨ChunkPath.extracted 0, 0, 50⟩, ⟨ChunkPath.extracted 1, 45, 100⟩] :
            List PlannedChunk).length)) := by
  refine ⟨rfl, ?_⟩
  exact transcribe_audio_chunked_flag
    [⟨ChunkPath.extracted 0, 0, 50⟩, ⟨ChunkPath.extracted 1, 45, 100⟩]
    flatResponses
    ⟨[⟨0, 0, str "hi", none, 1⟩, ⟨45, 45, str "hi", none, 1⟩], "en",
      str "hi hi", "groq", some true⟩
    rfl

/-- The segments one chunk contributes to the assembled transcript: its
(already shifted) segment list on success, nothing on failure. -/
def chunkResultSegments (response : Option GroqResponse) (c : PlannedChunk) :
    List TranscriptSegment :=
  match transcribe_audio_chunk response c.start_time with
  | none => []
  | some t => t.segments

/-- The segments accumulated by the chunk loop of `transcribe_audio`, spelled
out per chunk: each successful chunk contributes its (already shifted)
segment list, a failed chunk contributes nothing. -/
def collectedSegments (responses : ℕ → Option GroqResponse) :
    List PlannedChunk → ℕ → List TranscriptSegment
  | [], _ => []
  | c :: rest, i =>
    chunkResultSegments (responses i) c ++ collectedSegments responses rest (i + 1)

theorem chunkCollect_segments (responses : ℕ → Option GroqResponse) :
    ∀ (l : List PlannedChunk) (i : ℕ) (segs : List TranscriptSegment)
      (texts : List Text) (lang : String),
      (chunkCollect responses l i segs texts lang).1 =
        segs ++ collectedSegments responses l i := by
  intro l
  induction l with
  | nil => intro i segs texts lang; simp [chunkCollect, collectedSegments]
  | cons c rest ih =>
    intro i segs texts lang
    simp only [chunkCollect, collectedSegments, chunkResultSegments]
    match transcribe_audio_chunk (responses i) c.start_time with
    | none => rw [ih]; simp
    | some t => rw [ih]; simp

theorem convertSegments_ne_nil (r : GroqResponse) (o : ℚ) : convertSegments r o ≠ [] := by
  rw [convertSegments]
  rcases hs : r.segments with _ | ⟨s, rest⟩
  · simp
  · simp [hs]

theorem collectedSegments_eq_nil_iff (responses : ℕ → Option GroqResponse) :
    ∀ (l : List PlannedChunk) (i : ℕ),
      collectedSegments responses l i = [] ↔ ∀ j < l.length, responses (i + j) = none := by
  intro l
  induction l with
  | nil => intro i; simp [collectedSegments]
  | cons c rest ih =>
    intro i
    simp only [collectedSegments, chunkResultSegments, List.append_eq_nil, List.length_cons]
    match hr : responses i with
    | none =>
      simp only [transcribe_audio_chunk, true_and]
      rw [ih]
      constructor
      · intro h j hj
        match j with
        | 0 => simpa using hr
        | j' + 1 =>
          have := h j' (by omega)
          simpa [Nat.add_comm, Nat.add_assoc, Nat.add_left_comm] using this
      · intro h j hj
        have := h (j + 1) (by omega)
        simpa [Nat.add_comm, Nat.add_assoc, Nat.add_left_comm] using this
    | some r =>
      simp only [transcribe_audio_chunk]
      constructor
      · intro h
        exact absurd h.1 (convertSegments_ne_nil r c.start_time)
      · intro h
        have := h 0 (by omega)
        simp only [Nat.add_zero] at this
        rw [hr] at this
        exact absurd this (by simp)

/-- C5: over a plan of more than one chunk, `transcribe_audio` returns `None`
exactly when every chunk's transcription failed; if at least one chunk
succeeds, it returns a transcript with `chunked = True` whose segment list is
the (non-empty) concatenation of the successful chunks' segments — never an
empty-but-valid transcript. -/
theorem transcribe_audio_none_iff_all_chunks_fail
    (chunks : List PlannedChunk) (responses : ℕ → Option GroqResponse)
    (h : 1 < chunks.length) :
    (transcribe_audio chunks responses = none ↔
      ∀ i < chunks.length, responses i = none) ∧
    ((∃ i, i < chunks.length ∧ (responses i).isSome = true) →
      ∃ t, transcribe_audio chunks responses = some t ∧ t.chunked = some true ∧
        t.segments ≠ [] ∧ t.segments = collectedSegments responses chunks 0) := by
  have hne : chunks.isEmpty = false := by
    cases chunks with
    | nil => simp at h
    | cons c rest => rfl
  have hsingle : ¬ (chunks.length = 1 ∧
      chunks.head?.map PlannedChunk.path = some ChunkPath.original) := by
    intro hc
    omega
  rw [transcribe_audio, hne]
  simp only [Bool.false_eq_true, if_false, if_neg hsingle]
  match hc : chunkCollect responses chunks 0 [] [] "en" with
  | (segs, texts, lang) =>
    have hsegs : segs = collectedSegments responses chunks 0 := by
      have := chunkCollect_segments responses chunks 0 [] [] "en"
      rw [hc] at this
      simpa using this
    constructor
    · by_cases hemp : segs.isEmpty
      · rw [if_pos hemp]
        simp only [List.isEmpty_iff] at hemp
        rw [hemp] at hsegs
        have := (collectedSegments_eq_nil_iff responses chunks 0).mp hsegs.symm
        simp only [Nat.zero_add] at this
        simp only [true_iff]
        exact this
      · rw [if_neg hemp]
        simp only [List.isEmpty_iff] at hemp
        constructor
        · intro hcontra; exact absurd hcontra (by simp)
        · intro hall
          exfalso
          apply hemp
          rw [hsegs]
          rw [collectedSegments_eq_nil_iff responses chunks 0]
          simpa using hall
    · rintro ⟨i, hi, hsome⟩
      have hnotnil : segs ≠ [] := by
        rw [hsegs]
        intro hnil
        have := (collectedSegments_eq_nil_iff responses chunks 0).mp hnil
        have := this i (by simpa using hi)
        simp only [Nat.zero_add] at this
        rw [this] at hsome
        simp at hsome
      have hemp : segs.isEmpty = false := by
        simpa [List.isEmpty_iff] using hnotnil
      rw [hemp]
      simp only [Bool.false_eq_true, if_false]
      refine ⟨_, rfl, ?_, hnotnil, hsegs⟩
      simp [decide_eq_true_eq, h]

/-- Responses where chunk 0 fails and every other chunk succeeds with a
flat-text-only result. -/
def mixedResponses : ℕ → Option GroqResponse
  | 0 => none
  | _ + 1 => some ⟨[], str "ok", none⟩

theorem transcribe_audio_none_iff_all_chunks_fail_witness :
    1 < ([⟨ChunkPath.extracted 0, 0, 50⟩, ⟨ChunkPath.extracted 1, 45, 100⟩] :
        List PlannedChunk).length ∧
    (∃ i, i < ([⟨ChunkPath.extracted 0, 0, 50⟩, ⟨ChunkPath.extracted 1, 45, 100⟩] :
        List PlannedChunk).length ∧ (mixedResponses i).isSome = true) ∧
    (∃ t, transcribe_audio
        [⟨ChunkPath.extracted 0, 0, 50⟩, ⟨ChunkPath.extracted 1, 45, 100⟩]
        mixedResponses = some t ∧ t.chunked = some true ∧ t.segments ≠ [] ∧
      t.segments = collectedSegments mixedResponses
        [⟨ChunkPath.extracted 0, 0, 50⟩, ⟨ChunkPath.extracted 1, 45, 100⟩] 0) := by
  refine ⟨by decide, ⟨1, by decide, rfl⟩, ?_⟩
  exact (transcribe_audio_none_iff_all_chunks_fail
    [⟨ChunkPath.extracted 0, 0, 50⟩, ⟨ChunkPath.extracted 1, 45, 100⟩]
    mixedResponses (by decide)).2 ⟨1, by decide, rfl⟩

/-- C6: for a chunk transcribed with `offset_seconds` equal to its window's
start, every segment of the result carries the service-reported timestamps
plus the offset (and the stripped text, `speaker = None`, `confidence = 1`);
consequently, if the service reports non-negative chunk-relative timestamps no
larger than the window length `endW - offset_seconds`, every returned segment
satisfies `offset_seconds ≤ start` and `stop ≤ endW`. -/
theorem transcribe_chunk_offset_shift (r : GroqResponse) (offset_seconds endW : ℚ)
    (hne : r.segments ≠ []) :
    transcribe_audio_chunk (some r) offset_seconds =
      some ⟨r.segments.map (fun s =>
          ⟨s.start + offset_seconds, s.stop + offset_seconds, pyStrip s.text, none, 1⟩),
        r.language.getD "en", r.text, "groq", none⟩ ∧
    ((∀ s ∈ r.segments, 0 ≤ s.start ∧ s.stop ≤ endW - offset_seconds) →
      ∀ t, transcribe_audio_chunk (some r) offset_seconds = some t →
        ∀ g ∈ t.segments, offset_seconds ≤ g.start ∧ g.stop ≤ endW) := by
  have hemp : r.segments.isEmpty = false := by simpa [List.isEmpty_iff] using hne
  constructor
  · simp [transcribe_audio_chunk, convertSegments, hemp]
  · intro hbound t ht g hg
    simp only [transcribe_audio_chunk, Option.some.injEq] at ht
    rw [← ht] at hg
    simp only [convertSegments, hemp, Bool.false_eq_true, if_false, List.mem_map] at hg
    obtain ⟨s, hs, hgs⟩ := hg
    obtain ⟨h0, h1⟩ := hbound s hs
    rw [← hgs]
    constructor
    · simpa using by linarith
    · simpa using by linarith

/-- Concrete input for the C6 witness: one service segment `(1, 2)` inside
the window `(300, 600)`. -/
def c6resp : GroqResponse := ⟨[⟨1, 2, str "a"⟩], str "a", none⟩

theorem transcribe_chunk_offset_shift_witness :
    c6resp.segments ≠ [] ∧
    (∀ s ∈ c6resp.segments, 0 ≤ s.start ∧ s.stop ≤ 600 - 300) ∧
    (∀ t, transcribe_audio_chunk (some c6resp) 300 = some t →
      ∀ g ∈ t.segments, 300 ≤ g.start ∧ g.stop ≤ 600) := by
  have hb : ∀ s ∈ c6resp.segments, (0:ℚ) ≤ s.start ∧ s.stop ≤ 600 - 300 := by
    intro s hs
    simp only [c6resp, List.mem_singleton] at hs
    subst hs
    norm_num
  exact ⟨by decide, hb, (transcribe_chunk_offset_shift c6resp 300 600 (by decide)).2 hb⟩

/-- The episode record as `transcribe_episode` reads it: database id, status,
title, the `audio_file_path` column (`none` = missing or empty, both falsy in
the source) and whether that path exists on disk (an I/O fact, passed in as
an oracle flag). -/
structure Episode where
  id : ℕ
  status : String
  title : Text
  audio_file_path : Option String
  file_exists : Bool
deriving DecidableEq

/-- The database writes `transcribe_episode` performs:
`add_transcript_segments` (the saved segment list, `none` = never called) and
`update_episode_status` (the new status value, `none` = never called). -/
structure DBWrites where
  saved_segments : Option (List TranscriptSegment)
  status_update : Option String
deriving DecidableEq

/-- The no-write outcome: neither `add_transcript_segments` nor
`update_episode_status` was called. -/
def noWrites : DBWrites := ⟨none, none⟩

/-- `transcribe_episode` (transcriber_groq.py lines 258-310), with the
database lookup and the transcription outcome abstracted into arguments:
`episode = none` models `get_episode_by_id` finding nothing, and
`transcription` is the value `transcribe_audio` returns on the episode's
audio file.  The function returns the source's boolean result paired with
the database writes it performed. -/
def transcribe_episode (episode : Option Episode) (transcription : Option Transcript) :
    Bool × DBWrites :=
  match episode with
  | none => (false, noWrites)
  | some ep =>
    if ep.status = "transcribed" ∨ ep.status = "processed" then (false, noWrites)
    else if ep.audio_file_path = none ∨ ep.file_exists = false then (false, noWrites)
    else
      match transcription with
      | none => (false, noWrites)
      | some t => (true, ⟨some t.segments, some "transcribed"⟩)

/-- C9: if transcription fails entirely (`transcribe_audio` returned `None`),
`transcribe_episode` returns `False` having performed no database write at
all — no transcript segments saved and no status change; and whenever it does
issue a status update, that update is to `'transcribed'` and a non-`None`
transcript was produced (and the call returned `True`). -/
theorem transcribe_episode_requires_transcript (episode : Option Episode)
    (transcription : Option Transcript) :
    (transcription = none → transcribe_episode episode transcription = (false, noWrites)) ∧
    (∀ b w, transcribe_episode episode transcription = (b, w) → w.status_update ≠ none →
      w.status_update = some "transcribed" ∧ transcription ≠ none ∧ b = true ∧
      w.saved_segments ≠ none) := by
  constructor
  · intro hnone
    subst hnone
    match episode with
    | none => rfl
    | some ep =>
      rw [transcribe_episode]
      by_cases h1 : ep.status = "transcribed" ∨ ep.status = "processed"
      · rw [if_pos h1]
      · rw [if_neg h1]
        by_cases h2 : ep.audio_file_path = none ∨ ep.file_exists = false
        · rw [if_pos h2]
        · rw [if_neg h2]
  · intro b w hw hupd
    match episode with
    | none =>
      simp only [transcribe_episode, Prod.mk.injEq] at hw
      rw [← hw.2] at hupd
      exact absurd rfl hupd
    | some ep =>
      simp only [transcribe_episode] at hw
      by_cases h1 : ep.status = "transcribed" ∨ ep.status = "processed"
      · rw [if_pos h1] at hw
        simp only [Prod.mk.injEq] at hw
        rw [← hw.2] at hupd
        exact absurd rfl hupd
      · rw [if_neg h1] at hw
        by_cases h2 : ep.audio_file_path = none ∨ ep.file_exists = false
        · rw [if_pos h2] at hw
          simp only [Prod.mk.injEq] at hw
          rw [← hw.2] at hupd
          exact absurd rfl hupd
        · rw [if_neg h2] at hw
          match htr : transcription with
          | none =>
            simp only [Prod.mk.injEq] at hw
            rw [← hw.2] at hupd
            exact absurd rfl hupd
          | some t =>
            simp only [Prod.mk.injEq] at hw
            refine ⟨by rw [← hw.2], by simp, by rw [← hw.1], by rw [← hw.2]; simp⟩

theorem transcribe_episode_requires_transcript_witness :
    transcribe_episode
      (some ⟨3, "downloaded", str "ep", some "a.mp3", true⟩) none = (false, noWrites) :=
  (transcribe_episode_requires_transcript
    (some ⟨3, "downloaded", str "ep", some "a.mp3", true⟩) none).1 rfl

/-- The (already offset-shifted) segment list that chunk number `j` of the
plan contributes to the assembled transcript: empty when the index is out of
range or the chunk's transcription failed. -/
def chunkSegments (responses : ℕ → Option GroqResponse) (chunks : List PlannedChunk)
    (j : ℕ) : List TranscriptSegment :=
  match chunks[j]? with
  | none => []
  | some c => chunkResultSegments (responses j) c

/-- Like `chunkSegments`, but reading the responses from index `base + j`;
the generalization needed to induct over the plan list. -/
def chunkSegmentsShifted (responses : ℕ → Option GroqResponse) (base : ℕ)
    (l : List PlannedChunk) (j : ℕ) : List TranscriptSegment :=
  match l[j]? with
  | none => []
  | some c => chunkResultSegments (responses (base + j)) c

theorem chunkSegmentsShifted_cons (responses : ℕ → Option GroqResponse) (base : ℕ)
    (c : PlannedChunk) (rest : List PlannedChunk) (j : ℕ) :
    chunkSegmentsShifted responses base (c :: rest) (j + 1) =
      chunkSegmentsShifted responses (base + 1) rest j := by
  have harg : base + (j + 1) = base + 1 + j := by omega
  simp only [chunkSegmentsShifted, List.getElem?_cons_succ, harg]

theorem collectedSegments_eq_flatten (responses : ℕ → Option GroqResponse) :
    ∀ (l : List PlannedChunk) (base : ℕ),
      collectedSegments responses l base =
        ((List.range l.length).map (chunkSegmentsShifted responses base l)).flatten := by
  intro l
  induction l with
  | nil => intro base; simp [collectedSegments]
  | cons c rest ih =>
    intro base
    rw [collectedSegments, List.length_cons, List.range_succ_eq_map, List.map_cons,
      List.flatten_cons, List.map_map, ih (base + 1)]
    have hhead : chunkSegmentsShifted responses base (c :: rest) 0 =
        chunkResultSegments (responses base) c := by
      simp [chunkSegmentsShifted]
    rw [hhead]
    congr 2
    apply List.map_congr_left
    intro j hj
    exact (chunkSegmentsShifted_cons responses base c rest j).symm

theorem collectedSegments_eq_flatten_chunkSegments (responses : ℕ → Option GroqResponse)
    (chunks : List PlannedChunk) :
    collectedSegments responses chunks 0 =
      ((List.range chunks.length).map (chunkSegments responses chunks)).flatten := by
  rw [collectedSegments_eq_flatten responses chunks 0]
  congr 1
  apply List.map_congr_left
  intro j hj
  simp only [chunkSegmentsShifted, chunkSegments, Nat.zero_add]

theorem chunkSegments_start_bounds (responses : ℕ → Option GroqResponse)
    (chunks : List PlannedChunk) (i : ℕ) (hi : i < chunks.length)
    (hwf : (chunks.get ⟨i, hi⟩).start_time ≤ (chunks.get ⟨i, hi⟩).end_time)
    (hraw : ∀ r, responses i = some r → ∀ s ∈ r.segments,
        0 ≤ s.start ∧ s.start ≤
          (chunks.get ⟨i, hi⟩).end_time - (chunks.get ⟨i, hi⟩).start_time) :
    ∀ a ∈ chunkSegments responses chunks i,
      (chunks.get ⟨i, hi⟩).start_time ≤ a.start ∧
      a.start ≤ (chunks.get ⟨i, hi⟩).end_time := by
  intro a ha
  have hval : chunkSegments responses chunks i =
      chunkResultSegments (responses i) (chunks.get ⟨i, hi⟩) := by
    simp [chunkSegments, List.getElem?_eq_getElem hi, List.get_eq_getElem]
  rw [hval] at ha
  rcases hr : responses i with _ | r
  · rw [hr] at ha
    simp [chunkResultSegments, transcribe_audio_chunk] at ha
  · rw [hr] at ha
    simp only [chunkResultSegments, transcribe_audio_chunk] at ha
    rw [convertSegments] at ha
    by_cases hemp : r.segments.isEmpty
    · rw [if_pos hemp] at ha
      simp only [List.mem_singleton] at ha
      subst ha
      exact ⟨le_refl _, hwf⟩
    · rw [if_neg hemp] at ha
      simp only [List.mem_map] at ha
      obtain ⟨s, hs, hsa⟩ := ha
      obtain ⟨h0, h1⟩ := hraw r hr s hs
      subst hsa
      simp only [List.get_eq_getElem] at h1 hwf ⊢
      constructor
      · simpa using by linarith
      · simpa using by linarith

/-- Overlapping two-window plan `(0, 0, 1800)`, `(1, 1795, 3595)` as the
source planner's 1800 s / 5 s-overlap scheme would lay it out. -/
def c8Plan : List PlannedChunk :=
  [⟨ChunkPath.extracted 0, 0, 1800⟩, ⟨ChunkPath.extracted 1, 1795, 3595⟩]

/-- Chunk 0 reports a segment near the end of its window (start 1799);
chunk 1 returns a flat-text-only response, synthesizing a segment at its
window start 1795. -/
def c8Responses : ℕ → Option GroqResponse
  | 0 => some ⟨[⟨1799, 1800, str "late words"⟩], str "late words", none⟩
  | _ + 1 => some ⟨[], str "early words", none⟩

/-- The start times of the assembled transcript's segments on the c8 input. -/
def c8Starts : Option (List ℚ) :=
  (transcribe_audio c8Plan c8Responses).map fun t => t.segments.map TranscriptSegment.start

/-- C8 counterexample: with the plan's 5-second overlap, a chunk-0 segment
starting at 1799 (inside chunk 0's window) precedes a chunk-1 segment
starting at 1795 in the assembled output — the output start times are
`[1799, 1795]`, which is decreasing across the chunk boundary, refuting the
claimed cross-boundary monotonicity. -/
theorem overlap_breaks_cross_chunk_order :
    c8Starts = some [1799, 1795] ∧ (1795:ℚ) < 1799 := by
  constructor
  · simp [c8Starts, transcribe_audio, c8Plan, c8Responses, chunkCollect,
      transcribe_audio_chunk, convertSegments]
  · norm_num

/-- C8 amended: the assembler concatenates the chunks' segment lists in plan
index order (no reordering), and the claimed cross-boundary monotonicity —
no segment of a later chunk starting before any segment of an earlier chunk —
holds provided the plan's windows do not overlap (every earlier window ends no
later than every later window starts, which fails for the source planner's
positive overlap) and the service reports chunk-relative start times within
`[0, window length]`. -/
theorem cross_chunk_order_without_overlap (chunks : List PlannedChunk)
    (responses : ℕ → Option GroqResponse)
    (hlen : 1 < chunks.length)
    (hord : ∀ i j (hi : i < chunks.length) (hj : j < chunks.length), i < j →
      (chunks.get ⟨i, hi⟩).end_time ≤ (chunks.get ⟨j, hj⟩).start_time)
    (hwf : ∀ i (hi : i < chunks.length),
      (chunks.get ⟨i, hi⟩).start_time ≤ (chunks.get ⟨i, hi⟩).end_time)
    (hraw : ∀ i (hi : i < chunks.length) r, responses i = some r → ∀ s ∈ r.segments,
      0 ≤ s.start ∧ s.start ≤
        (chunks.get ⟨i, hi⟩).end_time - (chunks.get ⟨i, hi⟩).start_time) :
    ∀ t, transcribe_audio chunks responses = some t →
      t.segments =
        ((List.range chunks.length).map (chunkSegments responses chunks)).flatten ∧
      ∀ i j (hi : i < chunks.length) (hj : j < chunks.length), i < j →
        ∀ a ∈ chunkSegments responses chunks i,
          ∀ b ∈ chunkSegments responses chunks j, a.start ≤ b.start := by
  intro t ht
  have hne : chunks.isEmpty = false := by
    cases chunks with
    | nil => simp at hlen
    | cons c rest => rfl
  have hsingle : ¬ (chunks.length = 1 ∧
      chunks.head?.map PlannedChunk.path = some ChunkPath.original) := by
    intro hcon
    omega
  rw [transcribe_audio, hne] at ht
  simp only [Bool.false_eq_true, if_false, if_neg hsingle] at ht
  match hc : chunkCollect responses chunks 0 [] [] "en" with
  | (segs, texts, lang) =>
    rw [hc] at ht
    have hsegs : segs = collectedSegments responses chunks 0 := by
      have h := chunkCollect_segments responses chunks 0 [] [] "en"
      rw [hc] at h
      simpa using h
    by_cases hemp : segs.isEmpty
    · rw [if_pos hemp] at ht
      exact absurd ht (by simp)
    · rw [if_neg hemp] at ht
      simp only [Option.some.injEq] at ht
      constructor
      · rw [← ht]
        show segs = _
        rw [hsegs]
        exact collectedSegments_eq_flatten_chunkSegments responses chunks
      · intro i j hi hj hij a ha b hb
        have hA := chunkSegments_start_bounds responses chunks i hi (hwf i hi) (hraw i hi) a ha
        have hB := chunkSegments_start_bounds responses chunks j hj (hwf j hj) (hraw j hj) b hb
        have hC := hord i j hi hj hij
        linarith [hA.2, hB.1]

/-- A two-window plan with touching, non-overlapping windows. -/
def noOverlapPlan : List PlannedChunk :=
  [⟨ChunkPath.extracted 0, 0, 50⟩, ⟨ChunkPath.extracted 1, 50, 100⟩]

theorem cross_chunk_order_without_overlap_witness :
    (transcribe_audio noOverlapPlan flatResponses).isSome = true ∧
    (∀ t, transcribe_audio noOverlapPlan flatResponses = some t →
      t.segments = ((List.range noOverlapPlan.length).map
        (chunkSegments flatResponses noOverlapPlan)).flatten ∧
      ∀ i j (hi : i < noOverlapPlan.length) (hj : j < noOverlapPlan.length), i < j →
        ∀ a ∈ chunkSegments flatResponses noOverlapPlan i,
          ∀ b ∈ chunkSegments flatResponses noOverlapPlan j, a.start ≤ b.start) := by
  refine ⟨rfl, ?_⟩
  apply cross_chunk_order_without_overlap
  · decide
  · intro i j hi hj hij
    simp only [noOverlapPlan, List.length_cons, List.length_nil] at hi hj
    interval_cases i <;> interval_cases j <;>
      first
        | omega
        | norm_num [noOverlapPlan, List.get_eq_getElem]
  · intro i hi
    simp only [noOverlapPlan, List.length_cons, List.length_nil] at hi
    interval_cases i <;> norm_num [noOverlapPlan, List.get_eq_getElem]
  · intro i hi r hr s hs
    simp only [flatResponses, Option.some.injEq] at hr
    subst hr
    simp at hs

/-- Python regex class `[\s_]`: whitespace or underscore. -/
def isSpaceOrUnderscore (c : Char) : Bool := c.isWhitespace || c == '_'

/-- The character class `[a-z0-9-]` that `create_slug` keeps (the complement
of the class its second substitution removes). -/
def isSlugKeep (c : Char) : Bool :=
  (('a' ≤ c && c ≤ 'z') || ('0' ≤ c && c ≤ '9')) || c == '-'

/-- `re.sub('X+', r, s)` for a one-character-class pattern `X`: every maximal
run of characters matching `p` is replaced by the single character `r`.  The
`inRun` flag records that the current position continues a run whose
replacement was already emitted. -/
def subRuns (p : Char → Bool) (r : Char) : Bool → List Char → List Char
  | _, [] => []
  | inRun, c :: cs =>
    if p c then
      if inRun then subRuns p r true cs else r :: subRuns p r true cs
    else c :: subRuns p r false cs

/-- Python `str.rstrip('-')`: drop the trailing run of hyphens. -/
def rstripHyphens : List Char → List Char
  | [] => []
  | c :: cs =>
    match rstripHyphens cs with
    | [] => if c == '-' then [] else [c]
    | rest => c :: rest

/-- Python `str.strip('-')`: drop leading and trailing runs of hyphens. -/
def stripHyphens (l : List Char) : List Char :=
  rstripHyphens (l.dropWhile (· == '-'))

/-- `create_slug` (audio_chunking.py lines 13-37): lowercase, replace runs of
whitespace/underscores by a hyphen, drop every character outside `[a-z0-9-]`,
collapse hyphen runs, strip boundary hyphens, and if the result is longer
than `max_length`, cut it to `max_length` characters and strip the trailing
hyphens the cut may have exposed. -/
def create_slug (text : List Char) (max_length : ℕ) : List Char :=
  let slug1 := text.map Char.toLower
  let slug2 := subRuns isSpaceOrUnderscore '-' false slug1
  let slug3 := slug2.filter isSlugKeep
  let slug4 := subRuns (· == '-') '-' false slug3
  let slug5 := stripHyphens slug4
  if max_length < slug5.length then rstripHyphens (slug5.take max_length) else slug5

theorem mem_subRuns (p : Char → Bool) (r : Char) :
    ∀ (l : List Char) (b : Bool) (c : Char), c ∈ subRuns p r b l → c = r ∨ c ∈ l := by
  intro l
  induction l with
  | nil => intro b c hc; simp [subRuns] at hc
  | cons x xs ih =>
    intro b c hc
    rw [subRuns] at hc
    by_cases hx : p x
    · rw [if_pos hx] at hc
      cases b with
      | true =>
        rw [if_pos rfl] at hc
        rcases ih true c hc with h | h
        · exact Or.inl h
        · exact Or.inr (List.mem_cons_of_mem x h)
      | false =>
        simp only [Bool.false_eq_true, if_false, List.mem_cons] at hc
        rcases hc with h | h
        · exact Or.inl h
        · rcases ih true c h with h2 | h2
          · exact Or.inl h2
          · exact Or.inr (List.mem_cons_of_mem x h2)
    · rw [if_neg hx] at hc
      rcases List.mem_cons.mp hc with h | h
      · exact Or.inr (h ▸ List.mem_cons_self x xs)
      · rcases ih false c h with h2 | h2
        · exact Or.inl h2
        · exact Or.inr (List.mem_cons_of_mem x h2)

theorem subRuns_hyphen_ok :
    ∀ (l : List Char) (b : Bool),
      List.Chain' (fun a b : Char => ¬(a = '-' ∧ b = '-')) (subRuns (· == '-') '-' b l) ∧
      (b = true → (subRuns (· == '-') '-' b l).head? ≠ some '-') := by
  intro l
  induction l with
  | nil =>
    intro b
    exact ⟨by simp [subRuns], by intro _; simp [subRuns]⟩
  | cons x xs ih =>
    intro b
    by_cases hx : x == '-'
    · cases b with
      | true => simpa [subRuns, hx] using ih true
      | false =>
        rw [subRuns, if_pos hx]
        simp only [Bool.false_eq_true, if_false]
        refine ⟨List.chain'_cons'.mpr ⟨?_, (ih true).1⟩, by simp⟩
        intro y hy
        have hhd := (ih true).2 rfl
        intro hcon
        apply hhd
        rw [Option.mem_def] at hy
        rw [hy, hcon.2]
    · rw [subRuns, if_neg hx]
      have hxne : x ≠ '-' := by simpa using hx
      constructor
      · refine List.chain'_cons'.mpr ⟨?_, (ih false).1⟩
        intro y hy hcon
        exact hxne hcon.1
      · intro _
        simp only [List.head?_cons, ne_eq, Option.some.injEq]
        exact hxne

theorem chain'_dropWhile {R : Char → Char → Prop} (p : Char → Bool) :
    ∀ l : List Char, List.Chain' R l → List.Chain' R (l.dropWhile p) := by
  intro l
  induction l with
  | nil => intro h; simpa using h
  | cons x xs ih =>
    intro h
    rw [List.dropWhile_cons]
    by_cases hx : p x
    · simp only [hx, if_true]
      exact ih (List.chain'_cons'.mp h).2
    · simp only [hx, Bool.false_eq_true, if_false]
      exact h

theorem head_dropWhile_not (p : Char → Bool) :
    ∀ (l : List Char) (x : Char), (l.dropWhile p).head? = some x → p x = false := by
  intro l
  induction l with
  | nil => intro x hx; simp at hx
  | cons c cs ih =>
    intro x hx
    rw [List.dropWhile_cons] at hx
    by_cases hc : p c
    · simp only [hc, if_true] at hx
      exact ih x hx
    · simp only [hc, Bool.false_eq_true, if_false, List.head?_cons,
        Option.some.injEq] at hx
      rw [← hx]
      simpa using hc

theorem mem_dropWhile_sub (p : Char → Bool) :
    ∀ (l : List Char) (c : Char), c ∈ l.dropWhile p → c ∈ l := by
  intro l
  induction l with
  | nil => intro c hc; simpa using hc
  | cons x xs ih =>
    intro c hc
    rw [List.dropWhile_cons] at hc
    by_cases hx : p x
    · simp only [hx, if_true] at hc
      exact List.mem_cons_of_mem x (ih c hc)
    · simpa only [hx, Bool.false_eq_true, if_false] using hc

theorem mem_rstripHyphens : ∀ (l : List Char) (c : Char), c ∈ rstripHyphens l → c ∈ l := by
  intro l
  induction l with
  | nil => intro c hc; simpa [rstripHyphens] using hc
  | cons x xs ih =>
    intro c hc
    rw [rstripHyphens] at hc
    rcases hrec : rstripHyphens xs with _ | ⟨y, ys⟩
    · rw [hrec] at hc
      by_cases hx : x == '-'
      · simp [hx] at hc
      · simp only [hx, Bool.false_eq_true, if_false, List.mem_singleton] at hc
        rw [hc]
        exact List.mem_cons_self x xs
    · rw [hrec] at hc
      rcases List.mem_cons.mp hc with h | h
      · rw [h]
        exact List.mem_cons_self x xs
      · refine List.mem_cons_of_mem x (ih c ?_)
        rw [hrec]
        exact h

theorem length_rstripHyphens_le : ∀ l : List Char, (rstripHyphens l).length ≤ l.length := by
  intro l
  induction l with
  | nil => simp [rstripHyphens]
  | cons x xs ih =>
    rw [rstripHyphens]
    rcases hrec : rstripHyphens xs with _ | ⟨y, ys⟩
    · by_cases hx : x == '-'
      · simp [hx]
      · simp [hx]
    · rw [hrec] at ih
      simp only [List.length_cons] at ih ⊢
      omega

theorem head?_rstripHyphens :
    ∀ l : List Char, rstripHyphens l ≠ [] → (rstripHyphens l).head? = l.head? := by
  intro l
  induction l with
  | nil => intro h; simp [rstripHyphens] at h
  | cons x xs ih =>
    intro h
    rw [rstripHyphens] at h ⊢
    rcases hrec : rstripHyphens xs with _ | ⟨y, ys⟩
    · rw [hrec] at h
      by_cases hx : x == '-'
      · simp [hx] at h
      · simp [hx]
    · rfl

theorem getLast?_rstripHyphens :
    ∀ l : List Char, (rstripHyphens l).getLast? ≠ some '-' := by
  intro l
  induction l with
  | nil => simp [rstripHyphens]
  | cons x xs ih =>
    rw [rstripHyphens]
    rcases hrec : rstripHyphens xs with _ | ⟨y, ys⟩
    · by_cases hx : x == '-'
      · simp [hx]
      · simp only [hx, Bool.false_eq_true, if_false, List.getLast?_singleton, ne_eq,
          Option.some.injEq]
        simpa using hx
    · rw [List.getLast?_cons_cons]
      rw [hrec] at ih
      exact ih

theorem chain'_rstripHyphens {R : Char → Char → Prop} :
    ∀ l : List Char, List.Chain' R l → List.Chain' R (rstripHyphens l) := by
  intro l
  induction l with
  | nil => intro h; simpa [rstripHyphens] using h
  | cons x xs ih =>
    intro h
    obtain ⟨hhd, htl⟩ := List.chain'_cons'.mp h
    rw [rstripHyphens]
    rcases hrec : rstripHyphens xs with _ | ⟨y, ys⟩
    · by_cases hx : x == '-'
      · simp [hx]
      · simp [hx]
    · refine List.chain'_cons'.mpr ⟨?_, ?_⟩
      · intro z hz
        simp only [List.head?_cons, Option.mem_def, Option.some.injEq] at hz
        subst hz
        apply hhd
        have hne : rstripHyphens xs ≠ [] := by rw [hrec]; exact List.cons_ne_nil y ys
        have hh := head?_rstripHyphens xs hne
        rw [hrec] at hh
        simp only [List.head?_cons] at hh
        rw [Option.mem_def, ← hh]
      · have hih := ih htl
        rw [hrec] at hih
        exact hih

/-- C10: for every input and every `max_length`, `create_slug` returns a list
of at most `max_length` characters, all of them in `[a-z0-9-]`, with no two
consecutive hyphens and neither a leading nor a trailing hyphen (the result
may be empty). -/
theorem create_slug_spec (text : List Char) (max_length : ℕ) :
    (create_slug text max_length).length ≤ max_length ∧
    (∀ c ∈ create_slug text max_length, isSlugKeep c = true) ∧
    List.Chain' (fun a b : Char => ¬(a = '-' ∧ b = '-')) (create_slug text max_length) ∧
    (create_slug text max_length).head? ≠ some '-' ∧
    (create_slug text max_length).getLast? ≠ some '-' := by
  have hs3 : ∀ c ∈ (subRuns isSpaceOrUnderscore '-' false
      (text.map Char.toLower)).filter isSlugKeep, isSlugKeep c = true := by
    intro c hc
    exact (List.mem_filter.mp hc).2
  simp only [create_slug]
  set s3 := (subRuns isSpaceOrUnderscore '-' false (text.map Char.toLower)).filter isSlugKeep
    with hs3def
  set s4 := subRuns (· == '-') '-' false s3 with hs4def
  set s5 := stripHyphens s4 with hs5def
  have h4keep : ∀ c ∈ s4, isSlugKeep c = true := by
    intro c hc
    rcases mem_subRuns _ _ s3 false c hc with h | h
    · rw [h]; decide
    · exact hs3 c h
  have h4chain := (subRuns_hyphen_ok s3 false).1
  have h5eq : s5 = rstripHyphens (s4.dropWhile (· == '-')) := rfl
  have h5keep : ∀ c ∈ s5, isSlugKeep c = true := by
    intro c hc
    rw [h5eq] at hc
    exact h4keep c (mem_dropWhile_sub _ s4 c (mem_rstripHyphens _ c hc))
  have h5chain : List.Chain' (fun a b : Char => ¬(a = '-' ∧ b = '-')) s5 := by
    rw [h5eq]
    exact chain'_rstripHyphens _ (chain'_dropWhile _ s4 h4chain)
  have h5head : s5.head? ≠ some '-' := by
    intro hcon
    have hne : s5 ≠ [] := by
      intro hnil
      rw [hnil] at hcon
      simp at hcon
    rw [h5eq] at hcon hne
    rw [head?_rstripHyphens _ hne] at hcon
    have := head_dropWhile_not _ s4 '-' hcon
    simp at this
  have h5last : s5.getLast? ≠ some '-' := by
    rw [h5eq]
    exact getLast?_rstripHyphens _
  by_cases htr : max_length < s5.length
  · rw [if_pos htr]
    refine ⟨?_, ?_, ?_, ?_, ?_⟩
    · calc (rstripHyphens (s5.take max_length)).length
          ≤ (s5.take max_length).length := length_rstripHyphens_le _
        _ = min max_length s5.length := List.length_take max_length s5
        _ ≤ max_length := min_le_left _ _
    · intro c hc
      exact h5keep c (List.take_subset _ _ (mem_rstripHyphens _ c hc))
    · exact chain'_rstripHyphens _ (List.Chain'.take h5chain max_length)
    · intro hcon
      have hne : rstripHyphens (s5.take max_length) ≠ [] := by
        intro hnil
        rw [hnil] at hcon
        simp at hcon
      rw [head?_rstripHyphens _ hne, List.head?_take] at hcon
      by_cases hm : max_length = 0
      · rw [if_pos hm] at hcon
        simp at hcon
      · rw [if_neg hm] at hcon
        exact h5head hcon
    · exact getLast?_rstripHyphens _
  · rw [if_neg htr]
    exact ⟨by omega, h5keep, h5chain, h5head, h5last⟩

theorem create_slug_spec_witness :
    (create_slug (str "Hello World!") 8).length ≤ 8 ∧
    (∀ c ∈ create_slug (str "Hello World!") 8, isSlugKeep c = true) ∧
    List.Chain' (fun a b : Char => ¬(a = '-' ∧ b = '-'))
      (create_slug (str "Hello World!") 8) ∧
    (create_slug (str "Hello World!") 8).head? ≠ some '-' ∧
    (create_slug (str "Hello World!") 8).getLast? ≠ some '-' :=
  create_slug_spec (str "Hello World!") 8

end PodcastProcessor
